import Mathlib

/-!
Shallow embedding of the TilePuzzler tiling/reconstruction engine
(src/tilepuzzler.go): the Slicer (uploadPuzzleHandler) and the Composer
(exportPuzzleHandler), together with theorems settling the frozen claims.

Modelling conventions:
* A raster image is a pair of dimensions plus a total pixel function;
  reading outside the bounds yields the zero (fully transparent) color,
  exactly as Go's image.RGBA.At does.
* Colors are alpha-premultiplied 16-bit channels (the range image/draw
  uses internally); draw.Over is embedded by its defining formula
  dst.c + src stored as src.c + dst.c * (m - src.a) / m with m = 0xffff.
* Go machine integers are modelled as Nat / Int; none of the claims
  exercises 64-bit overflow (a canvas near 2^63 pixels cannot be
  allocated), so no explicit wrap-around is added.
* PNG encode/decode of a tile is lossless and normalises the image
  bounds to the origin (the PNG container stores no bounds offset), so
  a tile written from the sub-rectangle [x0,x1) x [y0,y1) of the resized
  image reads back as an (x1-x0) x (y1-y0) image whose pixel (dx,dy) is
  the resized image's pixel (x0+dx, y0+dy).
-/

namespace TilePuzzler

/-- The fixed tile edge length: tileSize = 512 in both handlers. -/
def tileSize : Nat := 512

/-- An alpha-premultiplied color, 16-bit channels in [0, 0xffff]. -/
structure Color where
  r : Nat
  g : Nat
  b : Nat
  a : Nat
deriving DecidableEq, Repr

/-- The zero value of image.RGBA pixels: fully transparent. -/
def Color.transparent : Color := ⟨0, 0, 0, 0⟩

/-- draw.Over compositing on premultiplied channels:
result = src + dst * (0xffff - src.a) / 0xffff, per channel. -/
def Color.over (s d : Color) : Color :=
  ⟨s.r + d.r * (65535 - s.a) / 65535,
   s.g + d.g * (65535 - s.a) / 65535,
   s.b + d.b * (65535 - s.a) / 65535,
   s.a + d.a * (65535 - s.a) / 65535⟩

/-- A raster image with bounds [0,width) x [0,height) (origin Min, as all
images handled by the engine have after decode). -/
structure Img where
  width : Nat
  height : Nat
  pix : Nat → Nat → Color

/-- Pixel lookup with the bounds check of image.RGBA.At: outside the
bounds the zero (transparent) color is returned. -/
def Img.pixVal (img : Img) (x y : Int) : Color :=
  if 0 ≤ x ∧ x < (img.width : Int) ∧ 0 ≤ y ∧ y < (img.height : Int) then
    img.pix x.toNat y.toNat
  else Color.transparent

/-! ## fmt.Sscanf(pos, "%d,%d", &r, &c)

The Composer parses each placement key with Sscanf.  %d skips leading
white space and reads an optionally signed decimal integer; the literal
comma must follow immediately; on any scan failure the remaining
destination variables keep their zero values (they are freshly declared
in each loop iteration). -/

/-- White space skipped by the %d verb. -/
def isSpaceChar (ch : Char) : Bool :=
  ch = ' ' || ch = '\t' || ch = '\n' || ch = '\r'

/-- Drop leading white space. -/
def skipSpaces : List Char → List Char
  | [] => []
  | ch :: cs => if isSpaceChar ch then skipSpaces cs else ch :: cs

/-- Numeric value of a decimal digit character. -/
def digitVal (ch : Char) : Nat := ch.toNat - 48

/-- Consume a maximal run of decimal digits, accumulating the value. -/
def scanDigits : Nat → List Char → Nat × List Char
  | acc, [] => (acc, [])
  | acc, ch :: cs =>
    if ch.isDigit then scanDigits (acc * 10 + digitVal ch) cs else (acc, ch :: cs)

/-- The %d verb: skip spaces, optional sign, at least one digit.
Returns none exactly when Sscanf would report a scan error there. -/
def scanInt (cs : List Char) : Option (Int × List Char) :=
  match skipSpaces cs with
  | [] => none
  | ch :: rest =>
    if ch = '-' then
      match rest with
      | [] => none
      | d :: _ =>
        if d.isDigit then
          let p := scanDigits 0 rest
          some (-(p.1 : Int), p.2)
        else none
    else if ch = '+' then
      match rest with
      | [] => none
      | d :: _ =>
        if d.isDigit then
          let p := scanDigits 0 rest
          some ((p.1 : Int), p.2)
        else none
    else if ch.isDigit then
      let p := scanDigits 0 (ch :: rest)
      some ((p.1 : Int), p.2)
    else none

/-- fmt.Sscanf(pos, "%d,%d", &r, &c) with r, c zero-initialised: a
component that fails to scan stays 0, and scanning stops at the first
mismatch (the error returned by Sscanf is ignored by the handler). -/
def parseKey (s : String) : Int × Int :=
  match scanInt s.toList with
  | none => (0, 0)
  | some (r, rest) =>
    match rest with
    | [] => (r, 0)
    | ch :: rest2 =>
      if ch = ',' then
        match scanInt rest2 with
        | none => (r, 0)
        | some (c, _) => (r, c)
      else (r, 0)

/-! ## Composer (exportPuzzleHandler) -/

/-- The canvas-size scan: maxRow/maxCol start at 0 and are raised by any
parsed key component that exceeds them (lines 134-144). -/
def maxRC (placements : List (String × String)) : Int × Int :=
  placements.foldl
    (fun acc e =>
      let rc := parseKey e.1
      (if rc.1 > acc.1 then rc.1 else acc.1,
       if rc.2 > acc.2 then rc.2 else acc.2))
    (0, 0)

/-- draw.Draw(dst, Rectangle{Min: pt, Max: pt+src.Bounds().Size()}, src,
Point{}, draw.Over) for a decoded tile src (bounds at the origin): every
destination point p with p - pt inside the source bounds receives
over(src(p - pt), dst(p)); everything else is untouched.  (The clip to
the destination bounds is reflected through Img.pixVal, which masks
out-of-bounds reads; the stored width/height are unchanged.) -/
def paintTile (dst src : Img) (ox oy : Int) : Img :=
  { dst with
    pix := fun x y =>
      if ox ≤ (x : Int) ∧ (x : Int) < ox + src.width ∧
         oy ≤ (y : Int) ∧ (y : Int) < oy + src.height then
        Color.over (src.pix ((x : Int) - ox).toNat ((y : Int) - oy).toNat)
          (dst.pix x y)
      else dst.pix x y }

/-- One iteration of the compositing loop (lines 150-171): parse the key,
try to open and decode the tile from the store; on failure skip silently,
otherwise paint at (c*tileSize, r*tileSize). -/
def compStep (store : String → Option Img) (dst : Img) (e : String × String) : Img :=
  let rc := parseKey e.1
  match store e.2 with
  | none => dst
  | some img => paintTile dst img (rc.2 * tileSize) (rc.1 * tileSize)

/-- The whole Composer: canvas (maxCol+1)*tileSize x (maxRow+1)*tileSize
initialised fully transparent (image.NewRGBA zero value), then every
placement entry painted in iteration order.  The store abstracts the
pieces directory: filename to decoded image, none when open/decode fail. -/
def composite (store : String → Option Img) (placements : List (String × String)) : Img :=
  let mrc := maxRC placements
  placements.foldl (compStep store)
    { width := ((mrc.2 + 1) * tileSize).toNat,
      height := ((mrc.1 + 1) * tileSize).toNat,
      pix := fun _ _ => Color.transparent }

/-! ## Slicer geometry (uploadPuzzleHandler) -/

/-- targetWidth := tileSize * columns (line 231). -/
def targetWidthDef (columns : Nat) : Nat := tileSize * columns

/-- targetHeight := int(float64(targetWidth) / aspectRatio) with
aspectRatio = float64(w) / float64(h) (lines 232-233).  The float64
computation is modelled exactly by rational arithmetic; int() truncates
toward zero, which on a nonnegative value is the floor, i.e. Nat
division. -/
def targetHeightDef (ow oh columns : Nat) : Nat :=
  targetWidthDef columns * oh / ow

/-- cols := (bounds.Max.X + tileSize - 1) / tileSize (line 261). -/
def gridCols (w : Nat) : Nat := (w + tileSize - 1) / tileSize

/-- rows := (bounds.Max.Y + tileSize - 1) / tileSize (line 262). -/
def gridRows (h : Nat) : Nat := (h + tileSize - 1) / tileSize

/-- A clipped tile rectangle (lines 272-284): x0 = c*tileSize,
y0 = r*tileSize, x1/y1 capped at the image bounds. -/
structure Rect where
  x0 : Nat
  y0 : Nat
  x1 : Nat
  y1 : Nat
deriving DecidableEq, Repr

/-- The tile rectangle of grid cell (r, c) inside a w x h image. -/
def tileRect (w h r c : Nat) : Rect :=
  ⟨c * tileSize, r * tileSize,
   min (c * tileSize + tileSize) w,
   min (r * tileSize + tileSize) h⟩

/-- Point membership in a clipped rectangle. -/
def Rect.contains (rc : Rect) (x y : Nat) : Prop :=
  rc.x0 ≤ x ∧ x < rc.x1 ∧ rc.y0 ≤ y ∧ y < rc.y1

instance (rc : Rect) (x y : Nat) : Decidable (rc.contains x y) := by
  unfold Rect.contains
  infer_instance

/-- The tile image cut for cell (r, c): NewRGBA over the clipped
rectangle, filled with draw.Src from the resized image, then PNG
encoded/decoded, which normalises the bounds to the origin (see the file
header); pixel (dx,dy) is the resized image's pixel (x0+dx, y0+dy). -/
def sliceTile (img : Img) (r c : Nat) : Img :=
  let rc := tileRect img.width img.height r c
  { width := rc.x1 - rc.x0,
    height := rc.y1 - rc.y0,
    pix := fun dx dy => img.pix (rc.x0 + dx) (rc.y0 + dy) }

/-! ## Tile naming: fmt.Sprintf("image_%04d.png", len(pieces)) and the
solution keys fmt.Sprintf("%d,%d", r, c). -/

/-- The decimal digit character of d < 10. -/
def digitChar (d : Nat) : Char := Char.ofNat (48 + d)

/-- Decimal digits of n, most significant first (fuel-driven so that it
reduces definitionally; fuel n+1 always suffices). -/
def natDigitsAux : Nat → Nat → List Char
  | 0, _ => []
  | fuel + 1, n =>
    if n < 10 then [digitChar n]
    else natDigitsAux fuel (n / 10) ++ [digitChar (n % 10)]

/-- Decimal digit string of n (what %d prints for a nonnegative int). -/
def natDigits (n : Nat) : List Char := natDigitsAux (n + 1) n

/-- Rendering of a nonnegative integer by the %d verb. -/
def decRepr (n : Nat) : String := ⟨natDigits n⟩

/-- Rendering by %04d: left-padded with zeros to at least four digits. -/
def pad4 (n : Nat) : String :=
  ⟨List.replicate (4 - (natDigits n).length) '0' ++ natDigits n⟩

/-- The generated tile filename image_%04d.png for piece index i. -/
def tileName (i : Nat) : String := "image_" ++ pad4 i ++ ".png"

/-- The solution key fmt.Sprintf("%d,%d", r, c). -/
def keyOf (r c : Nat) : String := decRepr r ++ "," ++ decRepr c

/-! ## The Slicer's tile loop (lines 270-302) -/

/-- The inner column loop of row r. -/
def rowCells (r cols : Nat) : List (Nat × Nat) :=
  (List.range cols).map fun c => (r, c)

/-- The nested loop order: r in [0,rows), c in [0,cols), row-major. -/
def cellList (rows cols : Nat) : List (Nat × Nat) :=
  (List.range rows).flatMap fun r => rowCells r cols

/-- One iteration of the slicing loop acting on the accumulated state
(pieces, solution): the new tile is named after the current length of
pieces, appended to pieces, and recorded in the solution under "r,c". -/
def sliceStep (st : List String × List ((Nat × Nat) × String)) (rc : Nat × Nat) :
    List String × List ((Nat × Nat) × String) :=
  let name := tileName st.1.length
  (st.1 ++ [name], st.2 ++ [(rc, name)])

/-- The pieces list and solution map built by the loop.  The solution is
kept as an association list in insertion order; as a JSON map the key
order is irrelevant and the keys are pairwise distinct (proved below). -/
def sliceState (rows cols : Nat) : List String × List ((Nat × Nat) × String) :=
  (cellList rows cols).foldl sliceStep ([], [])

/-- The manifest's solution map of a freshly sliced rows x cols puzzle. -/
def solutionList (rows cols : Nat) : List ((Nat × Nat) × String) :=
  (sliceState rows cols).2

/-- The manifest's ordered pieces list. -/
def piecesList (rows cols : Nat) : List String :=
  (sliceState rows cols).1

/-- The canonical solution map rendered as Composer placements:
key "r,c" mapped to the tile filename. -/
def solutionPlacements (rows cols : Nat) : List (String × String) :=
  (solutionList rows cols).map fun e => (keyOf e.1.1 e.1.2, e.2)

/-- The pieces directory written by the Slicer for a resized image:
filename to the decoded stored tile.  Lookup scans the solution entries
(filenames are pairwise distinct, proved below, so which occurrence is
found is immaterial). -/
def sliceStore (img : Img) : String → Option Img :=
  fun fn =>
    ((solutionList (gridRows img.height) (gridCols img.width)).find?
        fun e => e.2 == fn).map
      fun e => sliceTile img e.1.1 e.1.2

/-- The composite produced by composing a freshly sliced puzzle's full
canonical solution map from its own tile store. -/
def solutionComposite (img : Img) : Img :=
  composite (sliceStore img)
    (solutionPlacements (gridRows img.height) (gridCols img.width))

/-! ## Upload error-handling model (uploadPuzzleHandler, lines 240-374)

Only the storage interactions are abstracted: each os.Create and each
encoder call either succeeds or fails.  The control flow below mirrors
the handler statement by statement; the decisive detail is which error
returns the code inspects and which it discards. -/

/-- Outcome of the upload request as seen by the client. -/
inductive UploadResult
  | ok
  | clientError (msg : String)
  | serverError (msg : String)
deriving DecidableEq, Repr

/-- Filesystem behaviour during one upload: whether os.Create succeeds
for a given path, and whether the subsequent encoder write (jpeg.Encode,
png.Encode, json Encode) would succeed for that path. -/
structure SliceFS where
  createOk : String → Bool
  encodeOk : String → Bool

/-- Relative path of tile i inside the puzzle directory. -/
def tilePath (i : Nat) : String := "pieces/" ++ tileName i

/-- The tile-writing loop (lines 270-302): os.Create is checked and its
failure aborts the request (lines 291-295), so the loop stops at the
first create failure; the value returned by png.Encode (line 296) is
DISCARDED by the code, so fs.encodeOk is never consulted for a tile. -/
def firstTileCreateFailure (fs : SliceFS) (count : Nat) : Option Nat :=
  (List.range count).find? fun i => !fs.createOk (tilePath i)

/-- The handler from the point the image is resized: save index.jpg
(create and encode both checked, lines 247-257), write the tiles, write
manifest.json (create checked at lines 311-315, the json encode at line
317 discarded), then update imageIndex.json (all its steps checked,
modelled by one flag). -/
def uploadPipeline (fs : SliceFS) (rows cols : Nat) (catalogOk : Bool) : UploadResult :=
  if !fs.createOk "index.jpg" then .serverError "Error creating index.jpg"
  else if !fs.encodeOk "index.jpg" then .serverError "Error saving index.jpg"
  else
    match firstTileCreateFailure fs (rows * cols) with
    | some _ => .serverError "Error creating tile file"
    | none =>
      if !fs.createOk "manifest.json" then .serverError "Error creating manifest.json"
      else if !catalogOk then .serverError "imageIndex.json failure"
      else .ok

/-- Modelled from the spec: targetHeight computed with round-to-nearest,
round(targetWidth / (sourceWidth / sourceHeight)) = round(targetWidth *
oh / ow); in integers, floor((targetWidth * oh + ow/2) / ow), written
below as (2 * targetWidth * oh + ow) / (2 * ow).  The code truncates
instead (see targetHeightDef). -/
def targetHeightRound (ow oh columns : Nat) : Nat :=
  (2 * targetWidthDef columns * oh + ow) / (2 * ow)

/-! ## Auxiliary predicates and characterisation helpers -/

/-- The canvas points the compositing step for entry e blends: nonempty
only when the store delivers a tile, and then exactly the tile's
translated rectangle. -/
def touches (store : String → Option Img) (e : String × String) (x y : Int) : Prop :=
  ∃ img, store e.2 = some img ∧
    (parseKey e.1).2 * (tileSize : Int) ≤ x ∧
    x < (parseKey e.1).2 * (tileSize : Int) + img.width ∧
    (parseKey e.1).1 * (tileSize : Int) ≤ y ∧
    y < (parseKey e.1).1 * (tileSize : Int) + img.height

/-- Any tile the store can deliver for this filename fits within one
tileSize x tileSize grid cell. -/
def fitsTile (store : String → Option Img) (fn : String) : Prop :=
  ∀ img, store fn = some img → img.width ≤ tileSize ∧ img.height ≤ tileSize

/-- Unrolling of the slicing loop: the solution entries produced from
piece index i onward over the remaining cells. -/
def solFrom : Nat → List (Nat × Nat) → List ((Nat × Nat) × String)
  | _, [] => []
  | i, rc :: rest => (rc, tileName i) :: solFrom (i + 1) rest

/-- The tile filenames produced from piece index i onward. -/
def namesFrom (i : Nat) (l : List (Nat × Nat)) : List String :=
  (solFrom i l).map fun e => e.2

/-! ## Concrete fixtures used by witnesses and counterexamples -/

/-- A one-pixel opaque red tile. -/
def redTile : Img := ⟨1, 1, fun _ _ => ⟨65535, 0, 0, 65535⟩⟩

/-- A one-pixel opaque green tile. -/
def greenTile : Img := ⟨1, 1, fun _ _ => ⟨0, 65535, 0, 65535⟩⟩

/-- A full-size opaque red tile. -/
def tileA : Img := ⟨512, 512, fun _ _ => ⟨65535, 0, 0, 65535⟩⟩

/-- A full-size opaque green tile. -/
def tileB : Img := ⟨512, 512, fun _ _ => ⟨0, 65535, 0, 65535⟩⟩

/-- A pieces directory holding a.png and b.png. -/
def demoStore : String → Option Img :=
  fun fn => if fn = "a.png" then some tileA else if fn = "b.png" then some tileB else none

/-- The spec's concrete export scenario. -/
def demoPlacements : List (String × String) := [("0,0", "a.png"), ("1,2", "b.png")]

/-- A store of two distinguishable one-pixel tiles. -/
def collideStore : String → Option Img :=
  fun fn => if fn = "a.png" then some redTile else if fn = "b.png" then some greenTile else none

/-- Two distinct map keys that both paint the origin cell: "0,0" parses
to (0,0) and the malformed "foo" defaults to (0,0). -/
def collidePlacements : List (String × String) := [("0,0", "a.png"), ("foo", "b.png")]

/-- A 512 x 300 resized image (e.g. a 512 x 300 source uploaded with
columns = 1): one grid row whose single tile row is clipped to 300. -/
def previewImg : Img := ⟨512, 300, fun _ _ => ⟨65535, 65535, 65535, 65535⟩⟩

/-- A store missing the file missing.png but holding b.png. -/
def holeStore : String → Option Img := fun fn => if fn = "b.png" then some tileB else none

/-- Placements referencing one nonexistent filename. -/
def holePlacements : List (String × String) := [("0,0", "missing.png"), ("1,1", "b.png")]

/-! # Helper lemmas

## Decimal printing and parsing

The Slicer prints keys and filenames with Sprintf (%d and %04d); the
Composer parses keys back with Sscanf.  The lemmas below establish the
round trip, which underpins the canonical-solution claims. -/

theorem digitChar_isDigit {d : Nat} (h : d < 10) : (digitChar d).isDigit = true := by
  interval_cases d <;> decide

theorem digitVal_digitChar {d : Nat} (h : d < 10) : digitVal (digitChar d) = d := by
  interval_cases d <;> decide

theorem natDigitsAux_fuel (f : Nat) : ∀ g n, n < f → n < g →
    natDigitsAux f n = natDigitsAux g n := by
  induction f with
  | zero => omega
  | succ f ih =>
    intro g n hf hg
    cases g with
    | zero => omega
    | succ g =>
      simp only [natDigitsAux]
      by_cases h10 : n < 10
      · simp [h10]
      · have hdiv : n / 10 < n := Nat.div_lt_self (by omega) (by omega)
        rw [if_neg h10, if_neg h10, ih g (n / 10) (by omega) (by omega)]

theorem natDigits_lt10 {n : Nat} (h : n < 10) : natDigits n = [digitChar n] := by
  simp [natDigits, natDigitsAux, h]

theorem natDigits_ge10 {n : Nat} (h : 10 ≤ n) :
    natDigits n = natDigits (n / 10) ++ [digitChar (n % 10)] := by
  have hdiv : n / 10 < n := Nat.div_lt_self (by omega) (by omega)
  have h1 : natDigits n = natDigitsAux n (n / 10) ++ [digitChar (n % 10)] := by
    rw [natDigits]
    show (if n < 10 then [digitChar n]
      else natDigitsAux n (n / 10) ++ [digitChar (n % 10)]) = _
    rw [if_neg (by omega)]
  rw [h1, natDigitsAux_fuel n (n / 10 + 1) (n / 10) (by omega) (by omega)]
  rfl

theorem natDigits_all_digits (n : Nat) : ∀ ch ∈ natDigits n, ch.isDigit = true := by
  induction n using Nat.strong_induction_on with
  | _ n ih =>
    intro ch hch
    by_cases h10 : n < 10
    · rw [natDigits_lt10 h10] at hch
      simp only [List.mem_singleton] at hch
      subst hch
      exact digitChar_isDigit h10
    · rw [natDigits_ge10 (by omega)] at hch
      rcases List.mem_append.mp hch with hl | hr
      · exact ih (n / 10) (Nat.div_lt_self (by omega) (by omega)) ch hl
      · simp only [List.mem_singleton] at hr
        subst hr
        exact digitChar_isDigit (Nat.mod_lt n (by omega))

theorem natDigits_ne_nil (n : Nat) : natDigits n ≠ [] := by
  by_cases h10 : n < 10
  · rw [natDigits_lt10 h10]; simp
  · rw [natDigits_ge10 (by omega)]; simp

theorem isDigit_not_space {ch : Char} (h : ch.isDigit = true) : isSpaceChar ch = false := by
  simp only [isSpaceChar, Bool.or_eq_false_iff, decide_eq_false_iff_not]
  refine ⟨⟨⟨?_, ?_⟩, ?_⟩, ?_⟩ <;> rintro rfl <;> exact absurd h (by decide)

theorem isDigit_ne_minus {ch : Char} (h : ch.isDigit = true) : ¬ ch = '-' := by
  rintro rfl; exact absurd h (by decide)

theorem isDigit_ne_plus {ch : Char} (h : ch.isDigit = true) : ¬ ch = '+' := by
  rintro rfl; exact absurd h (by decide)

theorem skipSpaces_not_space {ch : Char} {t : List Char} (h : isSpaceChar ch = false) :
    skipSpaces (ch :: t) = ch :: t := by
  simp [skipSpaces, h]

theorem scanDigits_not_digit (acc : Nat) {ch : Char} (t : List Char)
    (h : ch.isDigit = false) : scanDigits acc (ch :: t) = (acc, ch :: t) := by
  simp [scanDigits, h]

theorem scanDigits_append (n : Nat) : ∀ acc rest,
    scanDigits acc (natDigits n ++ rest) =
      scanDigits (acc * 10 ^ (natDigits n).length + n) rest := by
  induction n using Nat.strong_induction_on with
  | _ n ih =>
    intro acc rest
    by_cases h10 : n < 10
    · rw [natDigits_lt10 h10]
      simp only [List.cons_append, List.nil_append, scanDigits,
        if_pos (digitChar_isDigit h10), digitVal_digitChar h10, List.length_singleton]
      norm_num
    · have hge : 10 ≤ n := by omega
      have hm : n % 10 < 10 := Nat.mod_lt n (by omega)
      calc scanDigits acc (natDigits n ++ rest)
          = scanDigits acc (natDigits (n / 10) ++ ([digitChar (n % 10)] ++ rest)) := by
            rw [natDigits_ge10 hge, List.append_assoc]
        _ = scanDigits (acc * 10 ^ (natDigits (n / 10)).length + n / 10)
              ([digitChar (n % 10)] ++ rest) :=
            ih (n / 10) (Nat.div_lt_self (by omega) (by omega)) acc _
        _ = scanDigits ((acc * 10 ^ (natDigits (n / 10)).length + n / 10) * 10 + n % 10)
              rest := by
            simp only [List.singleton_append, scanDigits, if_pos (digitChar_isDigit hm),
              digitVal_digitChar hm]
            rfl
        _ = scanDigits (acc * 10 ^ (natDigits n).length + n) rest := by
            congr 1
            have hdm : n / 10 * 10 + n % 10 = n := by omega
            have hlen : (natDigits n).length = (natDigits (n / 10)).length + 1 := by
              rw [natDigits_ge10 hge]; simp
            rw [hlen, pow_succ]
            calc (acc * 10 ^ (natDigits (n / 10)).length + n / 10) * 10 + n % 10
                = acc * (10 ^ (natDigits (n / 10)).length * 10) +
                    (n / 10 * 10 + n % 10) := by ring
              _ = acc * (10 ^ (natDigits (n / 10)).length * 10) + n := by rw [hdm]

theorem scanDigits_natDigits (n : Nat) : scanDigits 0 (natDigits n) = (n, []) := by
  have h := scanDigits_append n 0 []
  rw [List.append_nil] at h
  rw [h]
  simp [scanDigits]

theorem scanInt_natDigits (n : Nat) {rest : List Char}
    (hrest : rest = [] ∨ ∃ d t, rest = d :: t ∧ d.isDigit = false) :
    scanInt (natDigits n ++ rest) = some ((n : Int), rest) := by
  obtain ⟨ch, t, hna⟩ := List.exists_cons_of_ne_nil (natDigits_ne_nil n)
  have hd : ch.isDigit = true :=
    natDigits_all_digits n ch (by rw [hna]; exact List.mem_cons_self ch t)
  have hstop : scanDigits 0 (natDigits n ++ rest) = (n, rest) := by
    rw [scanDigits_append]
    rcases hrest with rfl | ⟨d, s, rfl, hnd⟩
    · simp [scanDigits]
    · rw [scanDigits_not_digit _ _ hnd]; simp
  rw [hna, List.cons_append] at hstop ⊢
  simp only [scanInt, skipSpaces_not_space (isDigit_not_space hd),
    if_neg (isDigit_ne_minus hd), if_neg (isDigit_ne_plus hd), if_pos hd, hstop]

theorem keyOf_toList (r c : Nat) :
    (keyOf r c).toList = natDigits r ++ ',' :: natDigits c := by
  show (keyOf r c).data = _
  simp only [keyOf, decRepr, String.data_append]
  simp

theorem parseKey_keyOf (r c : Nat) : parseKey (keyOf r c) = ((r : Int), (c : Int)) := by
  have hcomma : (',' :: natDigits c) = [] ∨
      ∃ d t, (',' :: natDigits c) = d :: t ∧ d.isDigit = false :=
    Or.inr ⟨',', natDigits c, rfl, by decide⟩
  have hkey : (keyOf r c).toList = natDigits r ++ (',' :: natDigits c) := keyOf_toList r c
  have hc : scanInt (natDigits c) = some ((c : Int), []) := by
    have h0 := scanInt_natDigits c (Or.inl rfl)
    rwa [List.append_nil] at h0
  rw [parseKey, hkey, scanInt_natDigits r hcomma]
  simp [hc]

theorem scanDigits_replicate_zero : ∀ (k : Nat) (rest : List Char),
    scanDigits 0 (List.replicate k '0' ++ rest) = scanDigits 0 rest := by
  intro k
  induction k with
  | zero => simp
  | succ k ih =>
    intro rest
    simpa [List.replicate_succ, scanDigits, digitVal] using ih rest

theorem pad4_val (n : Nat) : scanDigits 0 (pad4 n).data = (n, []) := by
  show scanDigits 0 (List.replicate _ '0' ++ natDigits n) = (n, [])
  rw [scanDigits_replicate_zero, scanDigits_natDigits]

theorem tileName_inj {a b : Nat} (h : tileName a = tileName b) : a = b := by
  have hd := congrArg String.data h
  simp only [tileName, String.data_append] at hd
  have h2 : (pad4 a).data = (pad4 b).data :=
    List.append_cancel_left (List.append_cancel_right hd)
  have hv := pad4_val a
  rw [h2, pad4_val b] at hv
  exact (Prod.mk.injEq _ _ _ _ ▸ hv).1.symm

theorem keyOf_inj {a b c d : Nat} (h : keyOf a b = keyOf c d) : a = c ∧ b = d := by
  have h1 := parseKey_keyOf a b
  rw [h, parseKey_keyOf c d] at h1
  have h2 := Prod.mk.injEq _ _ _ _ ▸ h1
  exact ⟨(by exact_mod_cast h2.1 : c = a).symm, (by exact_mod_cast h2.2 : d = b).symm⟩

/-! ## Compositing lemmas -/

theorem Img.eq_of {a b : Img} (hw : a.width = b.width) (hh : a.height = b.height)
    (hp : a.pix = b.pix) : a = b := by
  cases a
  cases b
  simp only [Img.mk.injEq]
  exact ⟨hw, hh, hp⟩

theorem Color.over_transparent (s : Color) : Color.over s Color.transparent = s := by
  cases s
  simp [Color.over, Color.transparent]

theorem compStep_width (store : String → Option Img) (d : Img) (e : String × String) :
    (compStep store d e).width = d.width := by
  unfold compStep
  cases store e.2 <;> rfl

theorem compStep_height (store : String → Option Img) (d : Img) (e : String × String) :
    (compStep store d e).height = d.height := by
  unfold compStep
  cases store e.2 <;> rfl

theorem foldl_compStep_width (store : String → Option Img) :
    ∀ (l : List (String × String)) (d : Img),
      (l.foldl (compStep store) d).width = d.width := by
  intro l
  induction l with
  | nil => intro d; rfl
  | cons e t ih => intro d; rw [List.foldl_cons, ih, compStep_width]

theorem foldl_compStep_height (store : String → Option Img) :
    ∀ (l : List (String × String)) (d : Img),
      (l.foldl (compStep store) d).height = d.height := by
  intro l
  induction l with
  | nil => intro d; rfl
  | cons e t ih => intro d; rw [List.foldl_cons, ih, compStep_height]

theorem composite_width (store : String → Option Img) (l : List (String × String)) :
    (composite store l).width = (((maxRC l).2 + 1) * tileSize).toNat := by
  unfold composite
  rw [foldl_compStep_width]

theorem composite_height (store : String → Option Img) (l : List (String × String)) :
    (composite store l).height = (((maxRC l).1 + 1) * tileSize).toNat := by
  unfold composite
  rw [foldl_compStep_height]

theorem compStep_pix_untouched (store : String → Option Img) (d : Img)
    (e : String × String) (x y : Nat) (h : ¬ touches store e x y) :
    (compStep store d e).pix x y = d.pix x y := by
  unfold compStep
  cases hs : store e.2 with
  | none => rfl
  | some img =>
    simp only [paintTile]
    rw [if_neg]
    intro hc
    exact h ⟨img, hs, hc.1, hc.2.1, hc.2.2.1, hc.2.2.2⟩

theorem compStep_pix_touch (store : String → Option Img) (d : Img)
    (e : String × String) (x y : Nat) (img : Img) (hs : store e.2 = some img)
    (hx1 : (parseKey e.1).2 * (tileSize : Int) ≤ x)
    (hx2 : (x : Int) < (parseKey e.1).2 * (tileSize : Int) + img.width)
    (hy1 : (parseKey e.1).1 * (tileSize : Int) ≤ y)
    (hy2 : (y : Int) < (parseKey e.1).1 * (tileSize : Int) + img.height) :
    (compStep store d e).pix x y =
      Color.over
        (img.pix ((x : Int) - (parseKey e.1).2 * (tileSize : Int)).toNat
                 ((y : Int) - (parseKey e.1).1 * (tileSize : Int)).toNat)
        (d.pix x y) := by
  unfold compStep
  rw [hs]
  simp only [paintTile]
  rw [if_pos ⟨hx1, hx2, hy1, hy2⟩]

theorem foldl_pix_untouched (store : String → Option Img) :
    ∀ (l : List (String × String)) (d : Img) (x y : Nat),
      (∀ e ∈ l, ¬ touches store e x y) →
      (l.foldl (compStep store) d).pix x y = d.pix x y := by
  intro l
  induction l with
  | nil => intro d x y _; rfl
  | cons e t ih =>
    intro d x y h
    rw [List.foldl_cons, ih _ x y fun e2 he2 => h e2 (List.mem_cons_of_mem _ he2),
      compStep_pix_untouched store d e x y (h e (List.mem_cons_self _ _))]

theorem foldl_pix_once (store : String → Option Img) :
    ∀ (l : List (String × String)) (d : Img) (e : String × String) (x y : Nat) (img : Img),
      e ∈ l → l.Nodup →
      (∀ e2 ∈ l, e2 = e ∨ ¬ touches store e2 x y) →
      store e.2 = some img →
      (parseKey e.1).2 * (tileSize : Int) ≤ x →
      (x : Int) < (parseKey e.1).2 * (tileSize : Int) + img.width →
      (parseKey e.1).1 * (tileSize : Int) ≤ y →
      (y : Int) < (parseKey e.1).1 * (tileSize : Int) + img.height →
      (l.foldl (compStep store) d).pix x y =
        Color.over
          (img.pix ((x : Int) - (parseKey e.1).2 * (tileSize : Int)).toNat
                   ((y : Int) - (parseKey e.1).1 * (tileSize : Int)).toNat)
          (d.pix x y) := by
  intro l
  induction l with
  | nil => intro d e x y img hmem; exact absurd hmem (List.not_mem_nil e)
  | cons hd t ih =>
    intro d e x y img hmem hnodup hothers hs hx1 hx2 hy1 hy2
    obtain ⟨hnotmem, hndt⟩ := List.nodup_cons.mp hnodup
    by_cases hhd : hd = e
    · subst hhd
      have hnot : hd ∉ t := hnotmem
      have htun : ∀ e2 ∈ t, ¬ touches store e2 x y := by
        intro e2 he2
        rcases hothers e2 (List.mem_cons_of_mem _ he2) with rfl | hnt
        · exact absurd he2 hnot
        · exact hnt
      rw [List.foldl_cons, foldl_pix_untouched store t _ x y htun,
        compStep_pix_touch store d hd x y img hs hx1 hx2 hy1 hy2]
    · have hmem2 : e ∈ t := by
        rcases List.mem_cons.mp hmem with rfl | h2
        · exact absurd rfl hhd
        · exact h2
      have hhduntouched : ¬ touches store hd x y := by
        rcases hothers hd (List.mem_cons_self _ _) with rfl | hnt
        · exact absurd rfl hhd
        · exact hnt
      rw [List.foldl_cons,
        ih (compStep store d hd) e x y img hmem2 hndt
          (fun e2 he2 => hothers e2 (List.mem_cons_of_mem _ he2)) hs hx1 hx2 hy1 hy2,
        compStep_pix_untouched store d hd x y hhduntouched]

/-! ## Canvas-maximum lemmas -/

theorem if_gt_eq_max (a b : Int) : (if b > a then b else a) = max a b := by
  split_ifs <;> omega

theorem maxRC_eq (l : List (String × String)) :
    maxRC l = (l.foldl (fun a e => max a (parseKey e.1).1) 0,
               l.foldl (fun a e => max a (parseKey e.1).2) 0) := by
  suffices h : ∀ a b : Int,
      l.foldl (fun acc e =>
        (if (parseKey e.1).1 > acc.1 then (parseKey e.1).1 else acc.1,
         if (parseKey e.1).2 > acc.2 then (parseKey e.1).2 else acc.2)) (a, b) =
      (l.foldl (fun x e => max x (parseKey e.1).1) a,
       l.foldl (fun x e => max x (parseKey e.1).2) b) by
    exact h 0 0
  induction l with
  | nil => intro a b; rfl
  | cons e t ih =>
    intro a b
    rw [List.foldl_cons, List.foldl_cons, List.foldl_cons, if_gt_eq_max, if_gt_eq_max]
    exact ih (max a (parseKey e.1).1) (max b (parseKey e.1).2)

theorem foldl_max_le_init {α : Type} (f : α → Int) :
    ∀ (l : List α) (a : Int), a ≤ l.foldl (fun x e => max x (f e)) a := by
  intro l
  induction l with
  | nil => intro a; exact le_refl a
  | cons e t ih => intro a; exact le_trans (le_max_left a (f e)) (ih _)

theorem foldl_max_of_mem {α : Type} (f : α → Int) :
    ∀ (l : List α) (a : Int) (e : α), e ∈ l →
      f e ≤ l.foldl (fun x e2 => max x (f e2)) a := by
  intro l
  induction l with
  | nil => intro a e h; exact absurd h (List.not_mem_nil e)
  | cons hd t ih =>
    intro a e h
    rcases List.mem_cons.mp h with rfl | h2
    · exact le_trans (le_max_right a (f e)) (foldl_max_le_init f t _)
    · exact ih _ e h2

theorem foldl_max_le {α : Type} (f : α → Int) :
    ∀ (l : List α) (a M : Int), a ≤ M → (∀ e ∈ l, f e ≤ M) →
      l.foldl (fun x e => max x (f e)) a ≤ M := by
  intro l
  induction l with
  | nil => intro a M ha _; exact ha
  | cons hd t ih =>
    intro a M ha hall
    refine ih _ M ?_ fun e he => hall e (List.mem_cons_of_mem _ he)
    exact max_le ha (hall hd (List.mem_cons_self _ _))

theorem foldl_max_cases {α : Type} (f : α → Int) :
    ∀ (l : List α) (a : Int),
      l.foldl (fun x e => max x (f e)) a = a ∨
      ∃ e ∈ l, l.foldl (fun x e => max x (f e)) a = f e := by
  intro l
  induction l with
  | nil => intro a; exact Or.inl rfl
  | cons hd t ih =>
    intro a
    rcases ih (max a (f hd)) with h | ⟨e, he, h⟩
    · rcases max_choice a (f hd) with hm | hm
      · left; rw [List.foldl_cons, h, hm]
      · right; exact ⟨hd, List.mem_cons_self _ _, by rw [List.foldl_cons, h, hm]⟩
    · right; exact ⟨e, List.mem_cons_of_mem _ he, by rw [List.foldl_cons]; exact h⟩

/-! ## Commutation of disjoint paint steps -/

theorem compStep_comm (store : String → Option Img) (d : Img) (e1 e2 : String × String)
    (hne : parseKey e1.1 ≠ parseKey e2.1)
    (hf1 : fitsTile store e1.2) (hf2 : fitsTile store e2.2) :
    compStep store (compStep store d e1) e2 = compStep store (compStep store d e2) e1 := by
  cases hs1 : store e1.2 with
  | none => simp [compStep, hs1]
  | some i1 =>
    cases hs2 : store e2.2 with
    | none => simp [compStep, hs1, hs2]
    | some i2 =>
      have hd1 := hf1 i1 hs1
      have hd2 := hf2 i2 hs2
      refine Img.eq_of (by simp [compStep, hs1, hs2, paintTile])
        (by simp [compStep, hs1, hs2, paintTile]) ?_
      funext x y
      have hdisj : ¬ (((parseKey e1.1).2 * (tileSize : Int) ≤ (x : Int) ∧
          (x : Int) < (parseKey e1.1).2 * (tileSize : Int) + i1.width ∧
          (parseKey e1.1).1 * (tileSize : Int) ≤ (y : Int) ∧
          (y : Int) < (parseKey e1.1).1 * (tileSize : Int) + i1.height) ∧
          ((parseKey e2.1).2 * (tileSize : Int) ≤ (x : Int) ∧
          (x : Int) < (parseKey e2.1).2 * (tileSize : Int) + i2.width ∧
          (parseKey e2.1).1 * (tileSize : Int) ≤ (y : Int) ∧
          (y : Int) < (parseKey e2.1).1 * (tileSize : Int) + i2.height)) := by
        rintro ⟨c1, c2⟩
        apply hne
        simp only [tileSize] at c1 c2 hd1 hd2
        have hcol : (parseKey e1.1).2 = (parseKey e2.1).2 := by omega
        have hrow : (parseKey e1.1).1 = (parseKey e2.1).1 := by omega
        exact Prod.ext hrow hcol
      simp only [compStep, hs1, hs2, paintTile]
      split_ifs <;>
        first
          | rfl
          | exact absurd ⟨by assumption, by assumption⟩ hdisj

/-! # Claim theorems (part 1) -/

/-- C3 counterexample: a 1000 x 599 source sliced with columns = 1 has
targetWidth * oh / ow = 306.688: the claimed rounding yields 307, but the
code's int(...) truncation yields 306. -/
theorem targetHeight_not_rounded :
    targetHeightDef 1000 599 1 = 306 ∧ targetHeightRound 1000 599 1 = 307 ∧
    targetHeightDef 1000 599 1 ≠ targetHeightRound 1000 599 1 := by
  refine ⟨by decide, by decide, by decide⟩

/-- C3 (amended): the Slicer computes targetWidth = tileSize * columns
and targetHeight as the floor (truncation toward zero of the nonnegative
quotient), not the rounding, of targetWidth / (sourceWidth/sourceHeight);
the concrete 1800 x 1200, columns = 4 scenario resizes to 2048 x 1365
with cols = 4, rows = 3 and bottom-row tile height 341. -/
theorem targetHeight_is_floor :
    (∀ ow oh columns : Nat, 0 < ow →
      targetHeightDef ow oh columns =
        Nat.floor ((targetWidthDef columns * oh : ℚ) / (ow : ℚ))) ∧
    targetWidthDef 4 = 2048 ∧
    targetHeightDef 1800 1200 4 = 1365 ∧
    gridCols 2048 = 4 ∧
    gridRows 1365 = 3 ∧
    (tileRect 2048 1365 2 0).y1 - (tileRect 2048 1365 2 0).y0 = 341 := by
  refine ⟨fun ow oh columns _how => ?_, by decide, by decide, by decide, by decide, by decide⟩
  have h := Nat.floor_div_eq_div (α := ℚ) (targetWidthDef columns * oh) ow
  rw [targetHeightDef]
  rw [← h]
  norm_num

/-- Witness for the floor characterisation at the concrete scenario. -/
theorem targetHeight_is_floor_witness :
    targetHeightDef 1800 1200 4 =
      Nat.floor ((targetWidthDef 4 * 1200 : ℚ) / (1800 : ℚ)) :=
  targetHeight_is_floor.1 1800 1200 4 (by norm_num)

/-- C6: for a resized image of positive dimensions, the declared clipped
tile rectangles are each non-empty, lie inside the canvas, cover every
canvas point (namely (x, y) lies in the rectangle of cell
(y / tileSize, x / tileSize), a valid cell), and are pairwise disjoint
(a point determines its cell). -/
theorem tiles_partition_canvas (w h : Nat) (hw : 0 < w) (hh : 0 < h) :
    (∀ r c, r < gridRows h → c < gridCols w →
      (tileRect w h r c).x0 < (tileRect w h r c).x1 ∧
      (tileRect w h r c).y0 < (tileRect w h r c).y1) ∧
    (∀ r c x y, (tileRect w h r c).contains x y → x < w ∧ y < h) ∧
    (∀ x y, x < w → y < h →
      y / tileSize < gridRows h ∧ x / tileSize < gridCols w ∧
      (tileRect w h (y / tileSize) (x / tileSize)).contains x y) ∧
    (∀ r c r2 c2 x y, (tileRect w h r c).contains x y →
      (tileRect w h r2 c2).contains x y → r = r2 ∧ c = c2) := by
  refine ⟨fun r c hr hc => ?_, fun r c x y hm => ?_, fun x y hx hy => ?_,
    fun r c r2 c2 x y h1 h2 => ?_⟩ <;>
    simp only [tileRect, Rect.contains, gridRows, gridCols, tileSize] at * <;>
    omega

/-- Witness for the tiling partition at the concrete 2048 x 1365 canvas. -/
theorem tiles_partition_canvas_witness :
    (tileRect 2048 1365 2 3).x0 < (tileRect 2048 1365 2 3).x1 ∧
    (tileRect 2048 1365 2 3).y0 < (tileRect 2048 1365 2 3).y1 :=
  (tiles_partition_canvas 2048 1365 (by decide) (by decide)).1 2 3 (by decide) (by decide)

/-- C7: every declared tile has positive width and height, both at most
tileSize; tiles of the final row have height equal to height mod
tileSize when that remainder is nonzero and tileSize otherwise, and
symmetrically for widths in the final column. -/
theorem tile_dims_bounds (w h : Nat) (hw : 0 < w) (hh : 0 < h) :
    (∀ c, c < gridCols w →
      (tileRect w h (gridRows h - 1) c).y1 - (tileRect w h (gridRows h - 1) c).y0 =
        (if h % tileSize = 0 then tileSize else h % tileSize)) ∧
    (∀ r, r < gridRows h →
      (tileRect w h r (gridCols w - 1)).x1 - (tileRect w h r (gridCols w - 1)).x0 =
        (if w % tileSize = 0 then tileSize else w % tileSize)) ∧
    (∀ r c, r < gridRows h → c < gridCols w →
      0 < (tileRect w h r c).y1 - (tileRect w h r c).y0 ∧
      (tileRect w h r c).y1 - (tileRect w h r c).y0 ≤ tileSize ∧
      0 < (tileRect w h r c).x1 - (tileRect w h r c).x0 ∧
      (tileRect w h r c).x1 - (tileRect w h r c).x0 ≤ tileSize) := by
  refine ⟨fun c hc => ?_, fun r hr => ?_, fun r c hr hc => ?_⟩ <;>
    simp only [tileRect, gridRows, gridCols, tileSize] at * <;>
    first
      | (split_ifs <;> omega)
      | omega

/-- Witness for the boundary-tile dimensions at the 2048 x 1365 canvas. -/
theorem tile_dims_bounds_witness :
    (tileRect 2048 1365 2 0).y1 - (tileRect 2048 1365 2 0).y0 =
      (if 1365 % tileSize = 0 then tileSize else 1365 % tileSize) :=
  (tile_dims_bounds 2048 1365 (by decide) (by decide)).1 0 (by decide)

theorem composite_eq_foldl (store : String → Option Img) (l : List (String × String)) :
    composite store l = l.foldl (compStep store)
      { width := (((maxRC l).2 + 1) * tileSize).toNat,
        height := (((maxRC l).1 + 1) * tileSize).toNat,
        pix := fun _ _ => Color.transparent } := rfl

theorem demoStore_fits (fn : String) : fitsTile demoStore fn := by
  intro img h
  unfold demoStore at h
  split_ifs at h
  · injection h with h2; rw [← h2]; exact ⟨by decide, by decide⟩
  · injection h with h2; rw [← h2]; exact ⟨by decide, by decide⟩

theorem collideStore_fits (fn : String) : fitsTile collideStore fn := by
  intro img h
  unfold collideStore at h
  split_ifs at h
  · injection h with h2; rw [← h2]; exact ⟨by decide, by decide⟩
  · injection h with h2; rw [← h2]; exact ⟨by decide, by decide⟩

theorem holeStore_fits (fn : String) : fitsTile holeStore fn := by
  intro img h
  unfold holeStore at h
  split_ifs at h
  · injection h with h2; rw [← h2]; exact ⟨by decide, by decide⟩

/-- C5 counterexample: the placement map with the two distinct keys
"0,0" and "foo" maps both to the origin cell (the malformed key's
components default to 0), with different tiles; iterating the map in its
two possible orders paints the origin with different colors, so the
final pixel content does depend on the unspecified iteration order, and
two runs of the Composer need not be byte-identical. -/
theorem composite_order_dependent_cex :
    collidePlacements.Perm collidePlacements.reverse ∧
    (composite collideStore collidePlacements).pixVal 0 0 ≠
      (composite collideStore collidePlacements.reverse).pixVal 0 0 := by
  exact ⟨(List.reverse_perm _).symm, by decide⟩

/-- C5 (amended): the Composer's output is a deterministic function of
the placement map and tile contents, independent of iteration order,
PROVIDED the keys parse to pairwise-distinct cells and every decoded
tile fits in a tileSize x tileSize cell (both hold for canonical
solution placements); when two keys collide after parsing (e.g. a
malformed key defaulting to cell (0,0)) or a tile overflows its cell,
overlapping paints make the output order-dependent. -/
theorem composite_order_independent (store : String → Option Img)
    (l1 l2 : List (String × String)) (hperm : l1.Perm l2)
    (hcells : (l1.map fun e => parseKey e.1).Nodup)
    (hfit : ∀ e ∈ l1, fitsTile store e.2) :
    composite store l1 = composite store l2 := by
  have hinj := List.inj_on_of_nodup_map hcells
  have hmax : maxRC l1 = maxRC l2 := by
    rw [maxRC_eq, maxRC_eq]
    refine Prod.ext ?_ ?_
    · show l1.foldl (fun a e => max a (parseKey e.1).1) 0 =
        l2.foldl (fun a e => max a (parseKey e.1).1) 0
      exact hperm.foldl_eq'
        (fun x _ y _ (z : Int) => Max.right_comm z (parseKey x.1).1 (parseKey y.1).1) 0
    · show l1.foldl (fun a e => max a (parseKey e.1).2) 0 =
        l2.foldl (fun a e => max a (parseKey e.1).2) 0
      exact hperm.foldl_eq'
        (fun x _ y _ (z : Int) => Max.right_comm z (parseKey x.1).2 (parseKey y.1).2) 0
  rw [composite_eq_foldl, composite_eq_foldl, hmax]
  exact hperm.foldl_eq'
    (fun x hx y hy z => by
      by_cases hxy : x = y
      · subst hxy; rfl
      · exact compStep_comm store z x y (fun hp => hxy (hinj hx hy hp))
          (hfit x hx) (hfit y hy)) _

/-- Witness: the spec's concrete export scenario composed in both
iteration orders gives the same composite. -/
theorem composite_order_independent_witness :
    composite demoStore demoPlacements = composite demoStore demoPlacements.reverse :=
  composite_order_independent demoStore demoPlacements demoPlacements.reverse
    (List.reverse_perm demoPlacements).symm (by decide)
    (fun e _ => demoStore_fits e.2)

theorem maxRC_nonneg (l : List (String × String)) :
    0 ≤ (maxRC l).1 ∧ 0 ≤ (maxRC l).2 := by
  rw [maxRC_eq]
  exact ⟨foldl_max_le_init _ l 0, foldl_max_le_init _ l 0⟩

theorem composite_width_int (store : String → Option Img) (l : List (String × String)) :
    ((composite store l).width : Int) = ((maxRC l).2 + 1) * tileSize := by
  rw [composite_width]
  have h := (maxRC_nonneg l).2
  have : (0 : Int) ≤ ((maxRC l).2 + 1) * tileSize := by positivity
  omega

theorem composite_height_int (store : String → Option Img) (l : List (String × String)) :
    ((composite store l).height : Int) = ((maxRC l).1 + 1) * tileSize := by
  rw [composite_height]
  have h := (maxRC_nonneg l).1
  have : (0 : Int) ≤ ((maxRC l).1 + 1) * tileSize := by positivity
  omega

theorem maxRC_fst_le (l : List (String × String)) (e : String × String) (he : e ∈ l) :
    (parseKey e.1).1 ≤ (maxRC l).1 := by
  rw [maxRC_eq]
  exact foldl_max_of_mem _ l 0 e he

theorem maxRC_snd_le (l : List (String × String)) (e : String × String) (he : e ∈ l) :
    (parseKey e.1).2 ≤ (maxRC l).2 := by
  rw [maxRC_eq]
  exact foldl_max_of_mem _ l 0 e he

/-- Every placement entry not matching cell (r0, c0) leaves every point
of that cell untouched, provided tiles fit their cells. -/
theorem untouched_of_other_cell (store : String → Option Img)
    (e2 : String × String) (hf : fitsTile store e2.2)
    (r0 c0 : Int) (hne : (r0, c0) ≠ parseKey e2.1)
    (dx dy : Nat) (hdx : dx < tileSize) (hdy : dy < tileSize) :
    ¬ touches store e2 (c0 * tileSize + dx) (r0 * tileSize + dy) := by
  rintro ⟨img2, hs2, hb1, hb2, hb3, hb4⟩
  obtain ⟨hw2, hh2⟩ := hf img2 hs2
  apply hne
  have hc : c0 = (parseKey e2.1).2 := by
    simp only [tileSize] at hb1 hb2 hw2 hdx
    omega
  have hr : r0 = (parseKey e2.1).1 := by
    simp only [tileSize] at hb3 hb4 hh2 hdy
    omega
  exact Prod.ext hr hc

/-- The painted value of entry e at offset (dx, dy) inside its cell,
for a store delivering a tile there, under pairwise-distinct parsed
cells, non-negative keys, and cell-fitting tiles. -/
theorem composite_paint_at (store : String → Option Img)
    (l : List (String × String))
    (hnonneg : ∀ e ∈ l, 0 ≤ (parseKey e.1).1 ∧ 0 ≤ (parseKey e.1).2)
    (hcells : (l.map fun e => parseKey e.1).Nodup)
    (hfit : ∀ e ∈ l, fitsTile store e.2)
    (e : String × String) (he : e ∈ l) (img : Img) (hs : store e.2 = some img)
    (dx dy : Nat) (hdx : dx < img.width) (hdy : dy < img.height) :
    (composite store l).pixVal ((parseKey e.1).2 * tileSize + dx)
      ((parseKey e.1).1 * tileSize + dy) = img.pix dx dy := by
  have hinj := List.inj_on_of_nodup_map hcells
  obtain ⟨hr0, hc0⟩ := hnonneg e he
  obtain ⟨hw, hh⟩ := hfit e he img hs
  have hcle := maxRC_snd_le l e he
  have hrle := maxRC_fst_le l e he
  set X : Int := (parseKey e.1).2 * tileSize + dx with hX
  set Y : Int := (parseKey e.1).1 * tileSize + dy with hY
  have hXnn : 0 ≤ X := by positivity
  have hYnn : 0 ≤ Y := by positivity
  have hXlt : X < (composite store l).width := by
    rw [composite_width_int]
    simp only [hX, tileSize] at *
    omega
  have hYlt : Y < (composite store l).height := by
    rw [composite_height_int]
    simp only [hY, tileSize] at *
    omega
  have hxcast : ((X.toNat : Int)) = X := Int.toNat_of_nonneg hXnn
  have hycast : ((Y.toNat : Int)) = Y := Int.toNat_of_nonneg hYnn
  rw [Img.pixVal, if_pos ⟨hXnn, hXlt, hYnn, hYlt⟩]
  have hothers : ∀ e2 ∈ l, e2 = e ∨ ¬ touches store e2 X Y := by
    intro e2 he2
    by_cases heq : e2 = e
    · exact Or.inl heq
    · refine Or.inr ?_
      have hne : ((parseKey e.1).1, (parseKey e.1).2) ≠ parseKey e2.1 := by
        intro hp
        apply heq
        exact hinj he2 he (by rw [← hp])
      simpa [hX, hY] using untouched_of_other_cell store e2 (hfit e2 he2)
        (parseKey e.1).1 (parseKey e.1).2 hne dx dy
        (by simp only [tileSize] at hw ⊢; omega)
        (by simp only [tileSize] at hh ⊢; omega)
  have hnodup : l.Nodup := List.Nodup.of_map _ hcells
  have hres := foldl_pix_once store l
    { width := (((maxRC l).2 + 1) * tileSize).toNat,
      height := (((maxRC l).1 + 1) * tileSize).toNat,
      pix := fun _ _ => Color.transparent }
    e X.toNat Y.toNat img he hnodup
    (by rw [hxcast, hycast]; exact hothers) hs
    (by rw [hxcast]; simp [hX]) (by rw [hxcast]; simp [hX]; omega)
    (by rw [hycast]; simp [hY]) (by rw [hycast]; simp [hY]; omega)
  rw [composite_eq_foldl]
  rw [hres]
  have hdx2 : ((X : Int) - (parseKey e.1).2 * tileSize).toNat = dx := by
    simp [hX]
  have hdy2 : ((Y : Int) - (parseKey e.1).1 * tileSize).toNat = dy := by
    simp [hY]
  rw [hxcast, hycast, hdx2, hdy2, Color.over_transparent]

/-- C2 counterexample: for the empty placement map the canvas is
tileSize x tileSize = 512 x 512 (maxRow and maxCol keep their initial
zero values), not zero-size as claimed. -/
theorem empty_canvas_cex :
    (composite (fun _ => none) []).width = 512 ∧
    (composite (fun _ => none) []).height = 512 ∧
    ¬ (composite (fun _ => none) []).width = 0 := by
  exact ⟨by decide, by decide, by decide⟩

/-- C4: the code checks every os.Create but discards the error returned
by png.Encode for each tile (line 296) and by the manifest's json
Encode (line 317).  With a filesystem on which every create succeeds but
every tile and manifest encode fails (e.g. the disk fills right after
file creation), the upload still reports success: a successful response
does NOT imply the tiles and the manifest were written without error. -/
theorem upload_ignores_encode_failures :
    uploadPipeline ⟨fun _ => true, fun p => p == "index.jpg"⟩ 3 4 true = .ok ∧
    (⟨fun _ => true, fun p => p == "index.jpg"⟩ : SliceFS).encodeOk (tilePath 0) = false ∧
    (⟨fun _ => true, fun p => p == "index.jpg"⟩ : SliceFS).encodeOk "manifest.json" = false := by
  refine ⟨by decide, by decide, by decide⟩

/-- The canvas maxima are attained by some placement key when the map
is non-empty and all parsed keys are non-negative. -/
theorem maxRC_attained (l : List (String × String)) (hne : l ≠ [])
    (hnonneg : ∀ e ∈ l, 0 ≤ (parseKey e.1).1 ∧ 0 ≤ (parseKey e.1).2) :
    (∃ e ∈ l, (parseKey e.1).1 = (maxRC l).1) ∧
    (∃ e ∈ l, (parseKey e.1).2 = (maxRC l).2) := by
  obtain ⟨e0, he0⟩ := List.exists_mem_of_ne_nil l hne
  constructor
  · rcases foldl_max_cases (fun e => (parseKey e.1).1) l 0 with h | ⟨e, he, h⟩
    · refine ⟨e0, he0, ?_⟩
      have h1 := maxRC_fst_le l e0 he0
      have h2 := (hnonneg e0 he0).1
      rw [maxRC_eq]
      rw [maxRC_eq] at h1
      omega
    · exact ⟨e, he, by rw [maxRC_eq]; exact h.symm⟩
  · rcases foldl_max_cases (fun e => (parseKey e.1).2) l 0 with h | ⟨e, he, h⟩
    · refine ⟨e0, he0, ?_⟩
      have h1 := maxRC_snd_le l e0 he0
      have h2 := (hnonneg e0 he0).2
      rw [maxRC_eq]
      rw [maxRC_eq] at h1
      omega
    · exact ⟨e, he, by rw [maxRC_eq]; exact h.symm⟩

/-- C2 (amended): for a non-empty placement map whose keys parse to
non-negative pairs, the canvas is exactly (maxCol+1)*tileSize by
(maxRow+1)*tileSize with the maxima taken over the keys (stated as: the
canvas dominates every key's cell and some key attains each maximum);
with pairwise-distinct parsed cells and cell-fitting tiles every tile is
painted with its top-left corner at (col*tileSize, row*tileSize); the
EMPTY placement map, however, yields a tileSize x tileSize canvas (the
maxima keep their initial zeros), not a zero-size one. -/
theorem canvas_size_and_placement (store : String → Option Img)
    (l : List (String × String)) (hne : l ≠ [])
    (hnonneg : ∀ e ∈ l, 0 ≤ (parseKey e.1).1 ∧ 0 ≤ (parseKey e.1).2)
    (hcells : (l.map fun e => parseKey e.1).Nodup)
    (hfit : ∀ e ∈ l, fitsTile store e.2) :
    (∃ e ∈ l, ((composite store l).width : Int) = ((parseKey e.1).2 + 1) * tileSize) ∧
    (∀ e ∈ l, ((parseKey e.1).2 + 1) * (tileSize : Int) ≤ (composite store l).width) ∧
    (∃ e ∈ l, ((composite store l).height : Int) = ((parseKey e.1).1 + 1) * tileSize) ∧
    (∀ e ∈ l, ((parseKey e.1).1 + 1) * (tileSize : Int) ≤ (composite store l).height) ∧
    (∀ e ∈ l, ∀ img, store e.2 = some img → ∀ dx dy : Nat,
      dx < img.width → dy < img.height →
      (composite store l).pixVal ((parseKey e.1).2 * tileSize + dx)
        ((parseKey e.1).1 * tileSize + dy) = img.pix dx dy) ∧
    (composite store ([] : List (String × String))).width = tileSize ∧
    (composite store ([] : List (String × String))).height = tileSize := by
  obtain ⟨hatr, hatc⟩ := maxRC_attained l hne hnonneg
  refine ⟨?_, ?_, ?_, ?_, ?_, rfl, rfl⟩
  · obtain ⟨e, he, hc⟩ := hatc
    exact ⟨e, he, by rw [composite_width_int, hc]⟩
  · intro e he
    have h1 := maxRC_snd_le l e he
    have h2 := composite_width_int store l
    have h3 : (0 : Int) < tileSize := by decide
    nlinarith [h2, h1, h3]
  · obtain ⟨e, he, hr⟩ := hatr
    exact ⟨e, he, by rw [composite_height_int, hr]⟩
  · intro e he
    have h1 := maxRC_fst_le l e he
    have h2 := composite_height_int store l
    have h3 : (0 : Int) < tileSize := by decide
    nlinarith [h2, h1, h3]
  · intro e he img hs dx dy hdx hdy
    exact composite_paint_at store l hnonneg hcells hfit e he img hs dx dy hdx hdy

/-- Witness: the spec's concrete scenario, placements "0,0" to a.png
and "1,2" to b.png with 512 x 512 tiles: the canvas is 1536 x 1024 and
b.png's top-left pixel lands at (1024, 512). -/
theorem canvas_size_and_placement_witness :
    (composite demoStore demoPlacements).width = 1536 ∧
    (composite demoStore demoPlacements).height = 1024 ∧
    (composite demoStore demoPlacements).pixVal 1024 512 = tileB.pix 0 0 := by
  have h := canvas_size_and_placement demoStore demoPlacements (by decide)
    (by decide) (by decide) (fun e _ => demoStore_fits e.2)
  refine ⟨by decide, by decide, ?_⟩
  have hb : demoStore "b.png" = some tileB := by rfl
  have hp := h.2.2.2.2.1 ("1,2", "b.png") (by decide) tileB hb 0 0
    (by decide) (by decide)
  have hk : parseKey "1,2" = (1, 2) := by decide
  rw [hk] at hp
  simpa using hp

/-- C8: a placement entry whose filename fails to open or decode does
not fail the Composer: the canvas has the same dimensions as with any
other store (the failing key still counts toward the maxima), the
failing cell stays fully transparent, and every other entry is painted
normally (assuming keys parse to pairwise-distinct non-negative cells
and tiles fit their cells, as canonical placements do). -/
theorem missing_tile_tolerance (store : String → Option Img)
    (l : List (String × String)) (e0 : String × String)
    (hmem : e0 ∈ l) (hmiss : store e0.2 = none)
    (hnonneg : ∀ e ∈ l, 0 ≤ (parseKey e.1).1 ∧ 0 ≤ (parseKey e.1).2)
    (hcells : (l.map fun e => parseKey e.1).Nodup)
    (hfit : ∀ e ∈ l, fitsTile store e.2) :
    (∀ store2 : String → Option Img,
      (composite store l).width = (composite store2 l).width ∧
      (composite store l).height = (composite store2 l).height) ∧
    (∀ dx dy : Nat, dx < tileSize → dy < tileSize →
      (composite store l).pixVal ((parseKey e0.1).2 * tileSize + dx)
        ((parseKey e0.1).1 * tileSize + dy) = Color.transparent) ∧
    (∀ e ∈ l, ∀ img, store e.2 = some img → ∀ dx dy : Nat,
      dx < img.width → dy < img.height →
      (composite store l).pixVal ((parseKey e.1).2 * tileSize + dx)
        ((parseKey e.1).1 * tileSize + dy) = img.pix dx dy) := by
  have hinj := List.inj_on_of_nodup_map hcells
  refine ⟨?_, ?_, ?_⟩
  · intro store2
    rw [composite_width, composite_width, composite_height, composite_height]
    exact ⟨rfl, rfl⟩
  · intro dx dy hdx hdy
    obtain ⟨hr0, hc0⟩ := hnonneg e0 hmem
    have hcle := maxRC_snd_le l e0 hmem
    have hrle := maxRC_fst_le l e0 hmem
    set X : Int := (parseKey e0.1).2 * tileSize + dx with hX
    set Y : Int := (parseKey e0.1).1 * tileSize + dy with hY
    have hXnn : 0 ≤ X := by positivity
    have hYnn : 0 ≤ Y := by positivity
    have hXlt : X < (composite store l).width := by
      rw [composite_width_int]
      simp only [hX, tileSize] at *
      omega
    have hYlt : Y < (composite store l).height := by
      rw [composite_height_int]
      simp only [hY, tileSize] at *
      omega
    have hxcast : ((X.toNat : Int)) = X := Int.toNat_of_nonneg hXnn
    have hycast : ((Y.toNat : Int)) = Y := Int.toNat_of_nonneg hYnn
    rw [Img.pixVal, if_pos ⟨hXnn, hXlt, hYnn, hYlt⟩]
    have huntouched : ∀ e2 ∈ l, ¬ touches store e2 X.toNat Y.toNat := by
      intro e2 he2
      rw [hxcast, hycast]
      by_cases heq : e2 = e0
      · subst heq
        rintro ⟨img2, hs2, _⟩
        rw [hmiss] at hs2
        exact Option.noConfusion hs2
      · have hne : ((parseKey e0.1).1, (parseKey e0.1).2) ≠ parseKey e2.1 := by
          intro hp
          exact heq (hinj he2 hmem (by rw [← hp]))
        simpa [hX, hY] using untouched_of_other_cell store e2 (hfit e2 he2)
          (parseKey e0.1).1 (parseKey e0.1).2 hne dx dy hdx hdy
    rw [composite_eq_foldl, foldl_pix_untouched store l _ X.toNat Y.toNat huntouched]
  · intro e he img hs dx dy hdx hdy
    exact composite_paint_at store l hnonneg hcells hfit e he img hs dx dy hdx hdy

/-- Witness: placements with missing.png absent from the store and
b.png present: the composite still has the full 1024 x 1024 canvas, the
missing cell is transparent, b.png is painted. -/
theorem missing_tile_tolerance_witness :
    ((composite holeStore holePlacements).width =
      (composite demoStore holePlacements).width ∧
     (composite holeStore holePlacements).height =
      (composite demoStore holePlacements).height) ∧
    (composite holeStore holePlacements).pixVal 0 0 = Color.transparent ∧
    (composite holeStore holePlacements).pixVal 512 512 = tileB.pix 0 0 := by
  have h := missing_tile_tolerance holeStore holePlacements ("0,0", "missing.png")
    (by decide) (by rfl) (by decide) (by decide) (fun e _ => holeStore_fits e.2)
  refine ⟨h.1 demoStore, ?_, ?_⟩
  · have hp := h.2.1 0 0 (by decide) (by decide)
    have hk : parseKey "0,0" = (0, 0) := by decide
    rw [hk] at hp
    simpa using hp
  · have hb : holeStore "b.png" = some tileB := by rfl
    have hp := h.2.2 ("1,1", "b.png") (by decide) tileB hb 0 0 (by decide) (by decide)
    have hk : parseKey "1,1" = (1, 1) := by decide
    rw [hk] at hp
    simpa using hp

theorem maxRC_cons_congr (k1 k2 fn : String) (l : List (String × String))
    (h : parseKey k1 = parseKey k2) :
    maxRC ((k1, fn) :: l) = maxRC ((k2, fn) :: l) := by
  unfold maxRC
  rw [List.foldl_cons, List.foldl_cons]
  simp only [h]

theorem composite_cons_congr (store : String → Option Img) (k1 k2 fn : String)
    (l : List (String × String)) (h : parseKey k1 = parseKey k2) :
    composite store ((k1, fn) :: l) = composite store ((k2, fn) :: l) := by
  have hm := maxRC_cons_congr k1 k2 fn l h
  rw [composite_eq_foldl, composite_eq_foldl, hm, List.foldl_cons, List.foldl_cons]
  congr 1
  unfold compStep
  simp only [h]

/-- C10: a placement key whose leading integer fails to scan leaves
both components at their zero values: the Composer treats the entry
exactly as if its key were "0,0" (there is no rejection path), so it
contributes row 0 and column 0 to the canvas maxima and its tile is
painted at the origin; concretely "foo" and "bar" both parse to (0,0),
and the two malformed keys of collidePlacements-style maps overpaint
the same origin cell. -/
theorem malformed_key_as_origin (key fn : String)
    (hbad : scanInt key.toList = none) :
    parseKey key = (0, 0) ∧
    (∀ (store : String → Option Img) (l : List (String × String)),
      composite store ((key, fn) :: l) = composite store (("0,0", fn) :: l)) ∧
    parseKey "foo" = (0, 0) ∧ parseKey "bar" = (0, 0) ∧
    (composite collideStore [("foo", "a.png"), ("bar", "b.png")]).width = 512 ∧
    (composite collideStore [("foo", "a.png"), ("bar", "b.png")]).height = 512 ∧
    (composite collideStore [("foo", "a.png"), ("bar", "b.png")]).pixVal 0 0 =
      greenTile.pix 0 0 := by
  have hk : parseKey key = (0, 0) := by
    rw [parseKey, hbad]
  refine ⟨hk, ?_, by decide, by decide, by decide, by decide, by decide⟩
  intro store l
  exact composite_cons_congr store key "0,0" fn l (by rw [hk]; decide)

/-- Witness: the malformed key "foo" composes identically to "0,0". -/
theorem malformed_key_as_origin_witness :
    composite collideStore [("foo", "b.png")] =
      composite collideStore [("0,0", "b.png")] :=
  (malformed_key_as_origin "foo" "b.png" (by decide)).2.1 collideStore []


/-! ## The slicing loop: pieces and solution characterisation -/

theorem solFrom_cons (i : Nat) (rc : Nat × Nat) (t : List (Nat × Nat)) :
    solFrom i (rc :: t) = (rc, tileName i) :: solFrom (i + 1) t := rfl

theorem namesFrom_cons (i : Nat) (rc : Nat × Nat) (t : List (Nat × Nat)) :
    namesFrom i (rc :: t) = tileName i :: namesFrom (i + 1) t := rfl

theorem foldl_sliceStep (l : List (Nat × Nat)) :
    ∀ (ps : List String) (sol : List ((Nat × Nat) × String)),
      l.foldl sliceStep (ps, sol) =
        (ps ++ namesFrom ps.length l, sol ++ solFrom ps.length l) := by
  induction l with
  | nil => intro ps sol; simp [namesFrom, solFrom]
  | cons rc t ih =>
    intro ps sol
    rw [List.foldl_cons]
    show t.foldl sliceStep
        (ps ++ [tileName ps.length], sol ++ [(rc, tileName ps.length)]) = _
    rw [ih]
    rw [List.length_append, List.length_singleton, List.append_assoc, List.append_assoc,
      namesFrom_cons, solFrom_cons]
    rfl

theorem solutionList_eq (rows cols : Nat) :
    solutionList rows cols = solFrom 0 (cellList rows cols) := by
  unfold solutionList sliceState
  rw [foldl_sliceStep]
  simp

theorem piecesList_eq (rows cols : Nat) :
    piecesList rows cols = namesFrom 0 (cellList rows cols) := by
  unfold piecesList sliceState
  rw [foldl_sliceStep]
  simp

theorem solFrom_map_fst : ∀ (l : List (Nat × Nat)) (i : Nat),
    (solFrom i l).map (fun e => e.1) = l := by
  intro l
  induction l with
  | nil => intro i; rfl
  | cons rc t ih => intro i; simp [solFrom_cons, ih]

theorem mem_solFrom : ∀ (l : List (Nat × Nat)) (i : Nat) (e : (Nat × Nat) × String),
    e ∈ solFrom i l → ∃ j, l[j]? = some e.1 ∧ e.2 = tileName (i + j) := by
  intro l
  induction l with
  | nil => intro i e h; exact absurd h (List.not_mem_nil e)
  | cons rc t ih =>
    intro i e h
    rw [solFrom_cons] at h
    rcases List.mem_cons.mp h with rfl | h2
    · exact ⟨0, by simp, by rw [Nat.add_zero]⟩
    · obtain ⟨j, hj, hn⟩ := ih (i + 1) e h2
      refine ⟨j + 1, by simpa using hj, ?_⟩
      rw [hn]
      congr 1
      omega

theorem solFrom_mem_of_get : ∀ (l : List (Nat × Nat)) (i j : Nat) (rc : Nat × Nat),
    l[j]? = some rc → (rc, tileName (i + j)) ∈ solFrom i l := by
  intro l
  induction l with
  | nil => intro i j rc h; exact absurd h (by simp)
  | cons hd t ih =>
    intro i j rc h
    cases j with
    | zero =>
      simp only [List.getElem?_cons_zero, Option.some.injEq] at h
      subst h
      rw [solFrom_cons, Nat.add_zero]
      exact List.mem_cons_self _ _
    | succ j =>
      simp only [List.getElem?_cons_succ] at h
      rw [solFrom_cons]
      refine List.mem_cons_of_mem _ ?_
      have := ih (i + 1) j rc h
      rwa [show i + 1 + j = i + (j + 1) by omega] at this

theorem namesFrom_get : ∀ (l : List (Nat × Nat)) (i j : Nat),
    (namesFrom i l)[j]? = l[j]?.map fun _ => tileName (i + j) := by
  intro l
  induction l with
  | nil => intro i j; simp [namesFrom, solFrom]
  | cons hd t ih =>
    intro i j
    rw [namesFrom_cons]
    cases j with
    | zero => simp
    | succ j =>
      simp only [List.getElem?_cons_succ, ih (i + 1) j]
      have harith : i + 1 + j = i + (j + 1) := by omega
      rw [harith]

theorem solFrom_find? : ∀ (l : List (Nat × Nat)) (i j : Nat) (rc : Nat × Nat),
    l[j]? = some rc →
      (solFrom i l).find? (fun e => e.2 == tileName (i + j)) =
        some (rc, tileName (i + j)) := by
  intro l
  induction l with
  | nil => intro i j rc h; exact absurd h (by simp)
  | cons hd t ih =>
    intro i j rc h
    cases j with
    | zero =>
      simp only [List.getElem?_cons_zero, Option.some.injEq] at h
      subst h
      rw [solFrom_cons, Nat.add_zero, List.find?_cons]
      simp
    | succ j =>
      simp only [List.getElem?_cons_succ] at h
      rw [solFrom_cons, List.find?_cons]
      have hne : tileName i ≠ tileName (i + (j + 1)) := by
        intro hEq
        have := tileName_inj hEq
        omega
      have hbeq : (tileName i == tileName (i + (j + 1))) = false := by
        simp [hne]
      rw [hbeq]
      have := ih (i + 1) j rc h
      rwa [show i + 1 + j = i + (j + 1) by omega] at this

theorem namesFrom_nodup : ∀ (l : List (Nat × Nat)) (i : Nat), (namesFrom i l).Nodup := by
  intro l
  induction l with
  | nil => intro i; simp [namesFrom, solFrom]
  | cons hd t ih =>
    intro i
    rw [namesFrom_cons, List.nodup_cons]
    refine ⟨?_, ih (i + 1)⟩
    intro hmem
    obtain ⟨e, he, heq⟩ := List.mem_map.mp hmem
    obtain ⟨j, _, hn⟩ := mem_solFrom t (i + 1) e he
    rw [hn] at heq
    have := tileName_inj heq
    omega

theorem solFrom_nodup (l : List (Nat × Nat)) (i : Nat) : (solFrom i l).Nodup :=
  List.Nodup.of_map _ (namesFrom_nodup l i)

/-! ## The cell list -/

theorem cellList_zero (cols : Nat) : cellList 0 cols = [] := rfl

theorem cellList_succ (rows cols : Nat) :
    cellList (rows + 1) cols = cellList rows cols ++ rowCells rows cols := by
  unfold cellList
  rw [List.range_succ, List.flatMap_append]
  simp

theorem length_rowCells (r cols : Nat) : (rowCells r cols).length = cols := by
  simp [rowCells]

theorem length_cellList (rows cols : Nat) : (cellList rows cols).length = rows * cols := by
  induction rows with
  | zero => simp [cellList_zero]
  | succ rows ih =>
    rw [cellList_succ, List.length_append, ih, length_rowCells]
    ring

theorem rowCells_get (r cols c : Nat) (hc : c < cols) :
    (rowCells r cols)[c]? = some (r, c) := by
  unfold rowCells
  rw [List.getElem?_map]
  simp [List.getElem?_range, hc]

theorem cellList_get (rows cols : Nat) :
    ∀ r c, r < rows → c < cols → (cellList rows cols)[r * cols + c]? = some (r, c) := by
  induction rows with
  | zero => intro r c hr; omega
  | succ rows ih =>
    intro r c hr hc
    rw [cellList_succ]
    by_cases hlt : r < rows
    · rw [List.getElem?_append_left
        (by rw [length_cellList]; calc r * cols + c < r * cols + cols := by omega
              _ ≤ rows * cols := by nlinarith)]
      exact ih r c hlt hc
    · have hreq : r = rows := by omega
      subst hreq
      rw [List.getElem?_append_right (by rw [length_cellList]; omega)]
      rw [length_cellList]
      rw [show r * cols + c - r * cols = c by omega]
      exact rowCells_get r cols c hc

theorem cellList_get_inv (rows cols : Nat) :
    ∀ j rc, (cellList rows cols)[j]? = some rc →
      rc.1 < rows ∧ rc.2 < cols ∧ j = rc.1 * cols + rc.2 := by
  induction rows with
  | zero =>
    intro j rc h
    rw [cellList_zero] at h
    simp at h
  | succ rows ih =>
    intro j rc h
    rw [cellList_succ] at h
    by_cases hlt : j < rows * cols
    · rw [List.getElem?_append_left (by rw [length_cellList]; exact hlt)] at h
      obtain ⟨h1, h2, h3⟩ := ih j rc h
      exact ⟨by omega, h2, h3⟩
    · rw [List.getElem?_append_right (by rw [length_cellList]; omega)] at h
      rw [length_cellList] at h
      unfold rowCells at h
      rw [List.getElem?_map] at h
      have hlen : j - rows * cols < cols := by
        by_contra hge
        rw [List.getElem?_eq_none (by simp [List.length_range]; omega)] at h
        exact Option.noConfusion h
      rw [List.getElem?_range hlen] at h
      simp only [Option.map_some', Option.some.injEq] at h
      subst h
      exact ⟨Nat.lt_succ_self rows, hlen,
        (by omega : j = rows * cols + (j - rows * cols))⟩


theorem mem_cellList (rows cols : Nat) (rc : Nat × Nat) :
    rc ∈ cellList rows cols ↔ rc.1 < rows ∧ rc.2 < cols := by
  constructor
  · intro h
    unfold cellList at h
    obtain ⟨r, hr, hin⟩ := List.mem_flatMap.mp h
    unfold rowCells at hin
    obtain ⟨c, hc, heq⟩ := List.mem_map.mp hin
    rw [← heq]
    exact ⟨List.mem_range.mp hr, List.mem_range.mp hc⟩
  · rintro ⟨h1, h2⟩
    unfold cellList
    refine List.mem_flatMap.mpr ⟨rc.1, List.mem_range.mpr h1, ?_⟩
    unfold rowCells
    exact List.mem_map.mpr ⟨rc.2, List.mem_range.mpr h2, by simp⟩

theorem cellList_nodup (rows cols : Nat) : (cellList rows cols).Nodup := by
  induction rows with
  | zero => simp [cellList_zero]
  | succ rows ih =>
    rw [cellList_succ]
    refine List.Nodup.append ih ?_ ?_
    · unfold rowCells
      exact List.Nodup.map (fun a b h => (Prod.mk.injEq _ _ _ _ ▸ h).2)
        (List.nodup_range cols)
    · intro rc h1 h2
      have hm1 := (mem_cellList rows cols rc).mp h1
      have hm2 : rc.1 = rows := by
        unfold rowCells at h2
        obtain ⟨c, _, heq⟩ := List.mem_map.mp h2
        rw [← heq]
      omega

/-- C9: for a freshly sliced rows x cols puzzle the solution map is a
bijection from the grid cells onto the generated tile filenames: every
cell (r, c) with r < rows and c < cols is a key; every entry's key is
such a cell and its filename is image_%04d.png at index r*cols + c; the
keys enumerate the cells exactly (pairwise distinct); the filenames are
pairwise distinct; and the filename of cell (r, c) sits at position
r*cols + c of the ordered pieces list. -/
theorem solution_bijection (rows cols : Nat) :
    (∀ r c, r < rows → c < cols →
      ((r, c), tileName (r * cols + c)) ∈ solutionList rows cols) ∧
    (∀ e ∈ solutionList rows cols,
      e.1.1 < rows ∧ e.1.2 < cols ∧ e.2 = tileName (e.1.1 * cols + e.1.2)) ∧
    ((solutionList rows cols).map fun e => e.1) = cellList rows cols ∧
    ((solutionList rows cols).map fun e => e.1).Nodup ∧
    ((solutionList rows cols).map fun e => e.2).Nodup ∧
    (∀ r c, r < rows → c < cols →
      (piecesList rows cols)[r * cols + c]? = some (tileName (r * cols + c))) := by
  refine ⟨?_, ?_, ?_, ?_, ?_, ?_⟩
  · intro r c hr hcc
    rw [solutionList_eq]
    have h := solFrom_mem_of_get (cellList rows cols) 0 (r * cols + c) (r, c)
      (cellList_get rows cols r c hr hcc)
    simpa using h
  · intro e he
    rw [solutionList_eq] at he
    obtain ⟨j, hj, hn⟩ := mem_solFrom _ 0 e he
    obtain ⟨h1, h2, h3⟩ := cellList_get_inv rows cols j e.1 hj
    refine ⟨h1, h2, ?_⟩
    rw [hn, Nat.zero_add, h3]
  · rw [solutionList_eq, solFrom_map_fst]
  · rw [solutionList_eq, solFrom_map_fst]
    exact cellList_nodup rows cols
  · rw [solutionList_eq]
    exact namesFrom_nodup (cellList rows cols) 0
  · intro r c hr hcc
    rw [piecesList_eq, namesFrom_get, cellList_get rows cols r c hr hcc]
    simp

/-- Witness for the solution bijection at a 2 x 3 puzzle. -/
theorem solution_bijection_witness :
    ((0, 0), tileName (0 * 3 + 0)) ∈ solutionList 2 3 ∧
    (piecesList 2 3)[1 * 3 + 2]? = some (tileName (1 * 3 + 2)) :=
  ⟨(solution_bijection 2 3).1 0 0 (by decide) (by decide),
   (solution_bijection 2 3).2.2.2.2.2 1 2 (by decide) (by decide)⟩


/-! ## Composing the canonical solution from its own tile store (C1) -/

theorem sliceTile_width (img : Img) (r c : Nat) :
    (sliceTile img r c).width =
      min (c * tileSize + tileSize) img.width - c * tileSize := rfl

theorem sliceTile_height (img : Img) (r c : Nat) :
    (sliceTile img r c).height =
      min (r * tileSize + tileSize) img.height - r * tileSize := rfl

theorem parseKey_entry (r c : Nat) (fn : String) :
    parseKey (keyOf r c, fn).1 = ((r : Int), (c : Int)) := parseKey_keyOf r c

theorem over_blank (s : Color) (w h : Nat) (x y : Nat) :
    Color.over s ((Img.mk w h fun _ _ => Color.transparent).pix x y) = s :=
  Color.over_transparent s

theorem solutionPlacements_mem (rows cols r c : Nat) (hr : r < rows) (hc : c < cols) :
    (keyOf r c, tileName (r * cols + c)) ∈ solutionPlacements rows cols := by
  unfold solutionPlacements
  refine List.mem_map.mpr ⟨((r, c), tileName (r * cols + c)), ?_, rfl⟩
  rw [solutionList_eq]
  have h := solFrom_mem_of_get (cellList rows cols) 0 (r * cols + c) (r, c)
    (cellList_get rows cols r c hr hc)
  simpa using h

theorem solutionPlacements_char (rows cols : Nat) (e : String × String)
    (he : e ∈ solutionPlacements rows cols) :
    ∃ r c, r < rows ∧ c < cols ∧ e = (keyOf r c, tileName (r * cols + c)) := by
  unfold solutionPlacements at he
  obtain ⟨e2, he2, heq⟩ := List.mem_map.mp he
  rw [solutionList_eq] at he2
  obtain ⟨j, hj, hn⟩ := mem_solFrom _ 0 e2 he2
  obtain ⟨h1, h2, h3⟩ := cellList_get_inv rows cols j e2.1 hj
  refine ⟨e2.1.1, e2.1.2, h1, h2, ?_⟩
  rw [← heq, hn, Nat.zero_add, h3]

theorem solutionPlacements_nodup (rows cols : Nat) :
    (solutionPlacements rows cols).Nodup := by
  unfold solutionPlacements
  have hnames : ((solutionList rows cols).map fun e => e.2).Nodup := by
    rw [solutionList_eq]
    exact namesFrom_nodup _ 0
  have hsol : (solutionList rows cols).Nodup := List.Nodup.of_map _ hnames
  refine List.Nodup.map_on ?_ hsol
  intro a ha b hb hab
  have hsnd : a.2 = b.2 := (Prod.mk.injEq _ _ _ _ ▸ hab).2
  exact List.inj_on_of_nodup_map hnames ha hb hsnd

theorem sliceStore_lookup (img : Img) (r c : Nat)
    (hr : r < gridRows img.height) (hc : c < gridCols img.width) :
    sliceStore img (tileName (r * gridCols img.width + c)) =
      some (sliceTile img r c) := by
  unfold sliceStore
  rw [solutionList_eq]
  have h := solFrom_find? (cellList (gridRows img.height) (gridCols img.width)) 0
    (r * gridCols img.width + c) (r, c)
    (cellList_get (gridRows img.height) (gridCols img.width) r c hr hc)
  rw [Nat.zero_add] at h
  rw [h]
  rfl

/-- Any placement entry of the canonical solution that touches (x, y)
pins the point inside the resized image and determines the entry to be
the cell (y / tileSize, x / tileSize). -/
theorem sliceStore_touches (img : Img) (e2 : String × String)
    (he2 : e2 ∈ solutionPlacements (gridRows img.height) (gridCols img.width))
    (x y : Nat) (ht : touches (sliceStore img) e2 x y) :
    ∃ r2 c2, r2 < gridRows img.height ∧ c2 < gridCols img.width ∧
      e2 = (keyOf r2 c2, tileName (r2 * gridCols img.width + c2)) ∧
      x < img.width ∧ y < img.height ∧
      r2 = y / tileSize ∧ c2 = x / tileSize := by
  obtain ⟨r2, c2, hr2, hc2, he2eq⟩ := solutionPlacements_char _ _ e2 he2
  obtain ⟨img2, hs2, hb1, hb2, hb3, hb4⟩ := ht
  have hs2g : sliceStore img e2.2 = some (sliceTile img r2 c2) := by
    rw [he2eq]
    exact sliceStore_lookup img r2 c2 hr2 hc2
  rw [hs2] at hs2g
  have himg2 : img2 = sliceTile img r2 c2 := by
    injection hs2g
  have hpk : parseKey e2.1 = ((r2 : Int), (c2 : Int)) := by
    rw [he2eq]
    exact parseKey_entry r2 c2 _
  rw [hpk] at hb1 hb2 hb3 hb4
  rw [himg2, sliceTile_width] at hb2
  rw [himg2, sliceTile_height] at hb4
  dsimp only at hb1 hb2 hb3 hb4
  simp only [tileSize] at hb1 hb2 hb3 hb4
  refine ⟨r2, c2, hr2, hc2, he2eq, by omega, by omega, ?_, ?_⟩
  · show r2 = y / tileSize
    simp only [tileSize]
    omega
  · show c2 = x / tileSize
    simp only [tileSize]
    omega

/-- C1 counterexample: a 512 x 300 resized slicing source (one clipped
row of one tile) composes back to a 512 x 512 canvas, so the composite
is NOT identical to the resized image: its height differs and the strip
below y = 300 is transparent padding. -/
theorem solution_roundtrip_cex :
    (solutionComposite previewImg).height = 512 ∧ previewImg.height = 300 ∧
    solutionComposite previewImg ≠ previewImg :=
  ⟨by decide, rfl, fun hEq => absurd (congrArg Img.height hEq) (by decide)⟩

/-- C1 (amended): composing the full canonical solution map of a freshly
sliced puzzle from its own tile store yields a composite on a canvas of
cols*tileSize by rows*tileSize whose pixels agree with the resized
slicing source at every point of the source's domain; the area right of
or below the source extent (present whenever the resized height is not
an exact multiple of tileSize) is fully transparent, so the composite
equals the source pixel-for-pixel only on the source's own rectangle,
not necessarily as a whole image. -/
theorem solution_roundtrip (img : Img) (hw : 0 < img.width) (hh : 0 < img.height) :
    (solutionComposite img).width = gridCols img.width * tileSize ∧
    (solutionComposite img).height = gridRows img.height * tileSize ∧
    (∀ x y : Nat, x < img.width → y < img.height →
      (solutionComposite img).pixVal x y = img.pix x y) ∧
    (∀ x y : Nat, x < gridCols img.width * tileSize →
      y < gridRows img.height * tileSize →
      img.width ≤ x ∨ img.height ≤ y →
      (solutionComposite img).pixVal x y = Color.transparent) := by
  have hrows : 0 < gridRows img.height := by
    unfold gridRows tileSize
    omega
  have hcols : 0 < gridCols img.width := by
    unfold gridCols tileSize
    omega
  have hwle : img.width ≤ gridCols img.width * tileSize := by
    unfold gridCols tileSize
    omega
  have hhle : img.height ≤ gridRows img.height * tileSize := by
    unfold gridRows tileSize
    omega
  have hmem0 := solutionPlacements_mem (gridRows img.height) (gridCols img.width)
    (gridRows img.height - 1) (gridCols img.width - 1) (by omega) (by omega)
  have hmaxc : (maxRC (solutionPlacements (gridRows img.height) (gridCols img.width))).2 =
      (gridCols img.width : Int) - 1 := by
    apply le_antisymm
    · rw [maxRC_eq]
      apply foldl_max_le
      · omega
      · intro e he
        obtain ⟨r, c, hr, hc, heq⟩ :=
          solutionPlacements_char (gridRows img.height) (gridCols img.width) e he
        rw [heq, parseKey_entry]
        show ((c : Nat) : Int) ≤ (gridCols img.width : Int) - 1
        omega
    · have h := maxRC_snd_le _ _ hmem0
      rw [parseKey_entry] at h
      have h2 : ((gridCols img.width - 1 : Nat) : Int) ≤
          (maxRC (solutionPlacements (gridRows img.height) (gridCols img.width))).2 := h
      omega
  have hmaxr : (maxRC (solutionPlacements (gridRows img.height) (gridCols img.width))).1 =
      (gridRows img.height : Int) - 1 := by
    apply le_antisymm
    · rw [maxRC_eq]
      apply foldl_max_le
      · omega
      · intro e he
        obtain ⟨r, c, hr, hc, heq⟩ :=
          solutionPlacements_char (gridRows img.height) (gridCols img.width) e he
        rw [heq, parseKey_entry]
        show ((r : Nat) : Int) ≤ (gridRows img.height : Int) - 1
        omega
    · have h := maxRC_fst_le _ _ hmem0
      rw [parseKey_entry] at h
      have h2 : ((gridRows img.height - 1 : Nat) : Int) ≤
          (maxRC (solutionPlacements (gridRows img.height) (gridCols img.width))).1 := h
      omega
  have hwidth : (solutionComposite img).width = gridCols img.width * tileSize := by
    have h := composite_width_int (sliceStore img)
      (solutionPlacements (gridRows img.height) (gridCols img.width))
    rw [hmaxc] at h
    have h2 : ((solutionComposite img).width : Int) =
        (gridCols img.width : Int) * tileSize := by
      unfold solutionComposite
      rw [h]
      ring
    have h3 : ((solutionComposite img).width : Int) =
        ((gridCols img.width * tileSize : Nat) : Int) := by
      rw [h2]
      push_cast
      ring
    exact_mod_cast h3
  have hheight : (solutionComposite img).height = gridRows img.height * tileSize := by
    have h := composite_height_int (sliceStore img)
      (solutionPlacements (gridRows img.height) (gridCols img.width))
    rw [hmaxr] at h
    have h2 : ((solutionComposite img).height : Int) =
        (gridRows img.height : Int) * tileSize := by
      unfold solutionComposite
      rw [h]
      ring
    have h3 : ((solutionComposite img).height : Int) =
        ((gridRows img.height * tileSize : Nat) : Int) := by
      rw [h2]
      push_cast
      ring
    exact_mod_cast h3
  refine ⟨hwidth, hheight, ?_, ?_⟩
  · intro x y hx hy
    have hr0 : y / tileSize < gridRows img.height := by
      unfold gridRows tileSize
      omega
    have hc0 : x / tileSize < gridCols img.width := by
      unfold gridCols tileSize
      omega
    have he0 := solutionPlacements_mem (gridRows img.height) (gridCols img.width)
      (y / tileSize) (x / tileSize) hr0 hc0
    have hs0 := sliceStore_lookup img (y / tileSize) (x / tileSize) hr0 hc0
    have hothers : ∀ e2 ∈ solutionPlacements (gridRows img.height) (gridCols img.width),
        e2 = (keyOf (y / tileSize) (x / tileSize),
          tileName (y / tileSize * gridCols img.width + x / tileSize)) ∨
        ¬ touches (sliceStore img) e2 x y := by
      intro e2 he2
      by_cases heq : e2 = (keyOf (y / tileSize) (x / tileSize),
        tileName (y / tileSize * gridCols img.width + x / tileSize))
      · exact Or.inl heq
      · refine Or.inr fun ht => heq ?_
        obtain ⟨r2, c2, _, _, he2eq, _, _, hr2eq, hc2eq⟩ :=
          sliceStore_touches img e2 he2 x y ht
        rw [he2eq, hr2eq, hc2eq]
    have hb1 : (parseKey (keyOf (y / tileSize) (x / tileSize),
        tileName (y / tileSize * gridCols img.width + x / tileSize)).1).2 *
          (tileSize : Int) ≤ ((x : Nat) : Int) := by
      rw [parseKey_entry]
      show ((x / tileSize : Nat) : Int) * (tileSize : Int) ≤ ((x : Nat) : Int)
      simp only [tileSize]
      omega
    have hb2 : ((x : Nat) : Int) < (parseKey (keyOf (y / tileSize) (x / tileSize),
        tileName (y / tileSize * gridCols img.width + x / tileSize)).1).2 *
          (tileSize : Int) + (sliceTile img (y / tileSize) (x / tileSize)).width := by
      rw [parseKey_entry, sliceTile_width]
      show ((x : Nat) : Int) < ((x / tileSize : Nat) : Int) * (tileSize : Int) +
        ((min (x / tileSize * tileSize + tileSize) img.width - x / tileSize * tileSize : Nat) : Int)
      simp only [tileSize]
      omega
    have hb3 : (parseKey (keyOf (y / tileSize) (x / tileSize),
        tileName (y / tileSize * gridCols img.width + x / tileSize)).1).1 *
          (tileSize : Int) ≤ ((y : Nat) : Int) := by
      rw [parseKey_entry]
      show ((y / tileSize : Nat) : Int) * (tileSize : Int) ≤ ((y : Nat) : Int)
      simp only [tileSize]
      omega
    have hb4 : ((y : Nat) : Int) < (parseKey (keyOf (y / tileSize) (x / tileSize),
        tileName (y / tileSize * gridCols img.width + x / tileSize)).1).1 *
          (tileSize : Int) + (sliceTile img (y / tileSize) (x / tileSize)).height := by
      rw [parseKey_entry, sliceTile_height]
      show ((y : Nat) : Int) < ((y / tileSize : Nat) : Int) * (tileSize : Int) +
        ((min (y / tileSize * tileSize + tileSize) img.height - y / tileSize * tileSize : Nat) : Int)
      simp only [tileSize]
      omega
    have hres := foldl_pix_once (sliceStore img)
      (solutionPlacements (gridRows img.height) (gridCols img.width))
      { width := (((maxRC (solutionPlacements (gridRows img.height)
          (gridCols img.width))).2 + 1) * tileSize).toNat,
        height := (((maxRC (solutionPlacements (gridRows img.height)
          (gridCols img.width))).1 + 1) * tileSize).toNat,
        pix := fun _ _ => Color.transparent }
      (keyOf (y / tileSize) (x / tileSize),
        tileName (y / tileSize * gridCols img.width + x / tileSize))
      x y (sliceTile img (y / tileSize) (x / tileSize))
      he0 (solutionPlacements_nodup _ _) hothers hs0 hb1 hb2 hb3 hb4
    have hxw : x < gridCols img.width * tileSize := lt_of_lt_of_le hx hwle
    have hyh : y < gridRows img.height * tileSize := lt_of_lt_of_le hy hhle
    show (solutionComposite img).pixVal x y = img.pix x y
    rw [Img.pixVal, if_pos ⟨Int.natCast_nonneg x,
      (by rw [hwidth]; exact_mod_cast hxw), Int.natCast_nonneg y,
      (by rw [hheight]; exact_mod_cast hyh)⟩]
    unfold solutionComposite
    rw [composite_eq_foldl]
    simp only [Int.toNat_natCast]
    rw [hres, over_blank, parseKey_entry]
    dsimp only [sliceTile, tileRect]
    have happ : ∀ a b : Nat, a = x → b = y → img.pix a b = img.pix x y := by
      intro a b ha hb
      rw [ha, hb]
    apply happ <;> (simp only [tileSize]; omega)
  · intro x y hx hy hout
    have huntouched : ∀ e2 ∈ solutionPlacements (gridRows img.height) (gridCols img.width),
        ¬ touches (sliceStore img) e2 x y := by
      intro e2 he2 ht
      obtain ⟨r2, c2, _, _, _, hxw, hyh, _, _⟩ := sliceStore_touches img e2 he2 x y ht
      omega
    show (solutionComposite img).pixVal x y = Color.transparent
    rw [Img.pixVal, if_pos ⟨Int.natCast_nonneg x,
      (by rw [hwidth]; exact_mod_cast hx), Int.natCast_nonneg y,
      (by rw [hheight]; exact_mod_cast hy)⟩]
    unfold solutionComposite
    rw [composite_eq_foldl]
    simp only [Int.toNat_natCast]
    rw [foldl_pix_untouched (sliceStore img) _ _ x y huntouched]

/-- Witness: a pixel of the 512 x 300 source is reproduced exactly by
the composed canonical solution. -/
theorem solution_roundtrip_witness :
    (solutionComposite previewImg).pixVal 100 200 = previewImg.pix 100 200 :=
  (solution_roundtrip previewImg (by decide) (by decide)).2.2.1 100 200
    (by decide) (by decide)

end TilePuzzler
